import Mathlib

/-!
Verification of the stal Bayesian authorship model
(`src/stal-core/src/model/bayesian.rs`).

Modelling conventions:
* `f32` is embedded as the inductive type `F`: a finite value carries an exact
  rational.  Rounding of finite arithmetic is not modelled (finite operations
  are exact), signed zero is identified with zero; the IEEE special values
  NaN and the two infinities, and their propagation rules, are modelled
  faithfully, as is the NaN-ignoring behaviour of `f32::max` / `f32::min`.
* `f32::powf` is transcendental and does not live on the rationals; the
  classifier is therefore parametrised by a function `pw : F → F → F` and
  theorems constrain it by the range property `PwGood` that the real `powf`
  has on the inputs the code feeds it.
* `HashMap` / `HashSet` are embedded as association lists.  The unspecified
  (hash-seed dependent) iteration order of the author `HashSet` in `train`
  is an explicit oracle parameter `order`; the token `HashMap` is kept in
  first-insertion order, and nothing observable depends on that choice
  (see `tokenRatings_congr`).
* File reads (`std::fs::read_to_string`) are an oracle `fs : String → Option
  String`; the external tokenizer (charabia) and sentence splitter
  (text_splitter) are oracle parameters `tok` and `split`.
* `u32` is embedded as `Nat`.  The two `u32` subtractions in `predicate` use
  truncated `Nat` subtraction; for models produced by `train` the model
  invariant keeps both subtractions in range, where the two semantics agree.
-/

namespace Stal

/-- Embedding of `f32` values: exact rationals plus the IEEE special values.
Finite arithmetic is idealised as exact (no rounding); signed zero is
identified with zero. -/
inductive F where
  | fin (q : ℚ)
  | inf
  | ninf
  | nan
deriving DecidableEq

/-- IEEE negation. -/
def F.neg : F → F
  | fin q => fin (-q)
  | inf => ninf
  | ninf => inf
  | nan => nan

/-- IEEE addition: NaN propagates, opposite infinities give NaN. -/
def F.add : F → F → F
  | nan, _ => nan
  | _, nan => nan
  | inf, ninf => nan
  | ninf, inf => nan
  | inf, _ => inf
  | _, inf => inf
  | ninf, _ => ninf
  | _, ninf => ninf
  | fin a, fin b => fin (a + b)

/-- IEEE subtraction, `x - y = x + (-y)`. -/
def F.sub (x y : F) : F := x.add y.neg

/-- IEEE multiplication: NaN propagates, `inf * 0 = NaN`. -/
def F.mul : F → F → F
  | nan, _ => nan
  | _, nan => nan
  | fin a, fin b => fin (a * b)
  | inf, inf => inf
  | inf, ninf => ninf
  | ninf, inf => ninf
  | ninf, ninf => inf
  | inf, fin b => if b = 0 then nan else if 0 < b then inf else ninf
  | fin a, inf => if a = 0 then nan else if 0 < a then inf else ninf
  | ninf, fin b => if b = 0 then nan else if 0 < b then ninf else inf
  | fin a, ninf => if a = 0 then nan else if 0 < a then ninf else inf

/-- IEEE division: NaN propagates, `0/0 = NaN`, `x/0 = ±inf` for `x ≠ 0`
(the zero of the denominator is treated as `+0`), `inf/inf = NaN`,
finite over infinite is zero. -/
def F.div : F → F → F
  | nan, _ => nan
  | _, nan => nan
  | inf, inf => nan
  | inf, ninf => nan
  | ninf, inf => nan
  | ninf, ninf => nan
  | inf, fin b => if 0 ≤ b then inf else ninf
  | ninf, fin b => if 0 ≤ b then ninf else inf
  | fin _, inf => fin 0
  | fin _, ninf => fin 0
  | fin a, fin b =>
      if b = 0 then (if a = 0 then nan else if 0 < a then inf else ninf)
      else fin (a / b)

/-- Rust `f32::max`: ignores NaN — if one argument is NaN the other is
returned. -/
def F.fmax : F → F → F
  | nan, y => y
  | x, nan => x
  | inf, _ => inf
  | _, inf => inf
  | ninf, y => y
  | x, ninf => x
  | fin a, fin b => fin (max a b)

/-- Rust `f32::min`: ignores NaN — if one argument is NaN the other is
returned. -/
def F.fmin : F → F → F
  | nan, y => y
  | x, nan => x
  | ninf, _ => ninf
  | _, ninf => ninf
  | inf, y => y
  | x, inf => x
  | fin a, fin b => fin (min a b)

/-- Rust `f32::partial_cmp`: `none` exactly when an operand is NaN; the
`unwrap` inside `adjust_probabilities` panics precisely on `none`. -/
def F.pcmp : F → F → Option Ordering
  | nan, _ => none
  | _, nan => none
  | inf, inf => some .eq
  | ninf, ninf => some .eq
  | inf, _ => some .gt
  | _, inf => some .lt
  | ninf, _ => some .lt
  | _, ninf => some .gt
  | fin a, fin b => some (compare a b)

/-- Total comparison used to embed `sort_by(|a, b| a.partial_cmp(b).unwrap())`.
On NaN-free lists it agrees with the Rust comparator (claim C9 establishes
that classification only ever sorts NaN-free lists); NaN, on which the Rust
code would panic, is arbitrarily placed first to keep the function total. -/
def F.fle : F → F → Bool
  | nan, _ => true
  | _, nan => false
  | ninf, _ => true
  | _, ninf => false
  | fin a, fin b => decide (a ≤ b)
  | fin _, inf => true
  | inf, inf => true
  | inf, fin _ => false

/-- The `u32 as f32` / `usize as f32` cast (exact in the model; `f32`
rounding of large integers is not modelled). -/
def F.ofNat (n : Nat) : F := fin n

/-- The struct `BayesianModel`; `HashMap<String, Vec<u32>>` is embedded as an
association list with unique keys. -/
structure BayesianModel where
  authors : List String
  token_author_dict : List (String × List Nat)
  author_token_count : List Nat
  total_token_count : Nat
deriving DecidableEq

/-- The struct `Predication`. -/
structure Predication where
  sentences_predicate : List (Nat × List F)
  total_predicate : List F
deriving DecidableEq

/-- The struct `Classification`; each `HashMap<String, f32>` is embedded as
an association list in insertion order. -/
structure Classification where
  sentences_classification : List (Nat × List (String × F))
  total_classification : List (String × F)
deriving DecidableEq

/-- The constant `NO_TOKEN_RATING = 0.4`. -/
def NO_TOKEN_RATING : F := F.fin (2/5)

/-- The constant `MIN_RATING = 0.2`. -/
def MIN_RATING : F := F.fin (1/5)

/-- The constant `MAX_RATING = 0.7`. -/
def MAX_RATING : F := F.fin (7/10)

/-- Lookup in the association-list embedding of `token_author_dict`
(`HashMap::get`). -/
def dictGet (d : List (String × List Nat)) (k : String) : Option (List Nat) :=
  (d.find? (fun p => p.1 == k)).map Prod.snd

/-- Increment slot `idx` of a count vector (`token_count[author_index] += 1`;
`idx` is a `position` result in `authors`, hence always in range). -/
def vecBump (v : List Nat) (idx : Nat) : List Nat :=
  v.set idx (v.getD idx 0 + 1)

/-- The body `token_author_dict.entry(token).or_insert(vec![0; author_count])`
followed by the increment: update the entry in place if the key is present,
otherwise insert a fresh zero vector of length `A` and increment it. -/
def dictBump (d : List (String × List Nat)) (k : String) (A idx : Nat) :
    List (String × List Nat) :=
  match d with
  | [] => [(k, vecBump (List.replicate A 0) idx)]
  | p :: rest =>
      if p.1 == k then (p.1, vecBump p.2 idx) :: rest
      else p :: dictBump rest k A idx

/-- Componentwise `u32` vector addition,
`acc.iter().zip(token_count.iter()).map(|(a, b)| *a + *b)` — like the Rust
`zip`, it truncates to the shorter operand. -/
def vecAdd (a b : List Nat) : List Nat := a.zipWith (· + ·) b

/-- The fold deriving `author_token_count` from the token table. -/
def atcOf (A : Nat) (d : List (String × List Nat)) : List Nat :=
  d.foldl (fun acc p => vecAdd acc p.2) (List.replicate A 0)

/-- One `(author, path)` iteration of the training loop: look up the author
index (`authors.iter().position(..).unwrap()`), read the file, tokenise the
whole text and bump every token count.  The propagated read error and the
panic of the unchecked `position` lookup are both modelled as `none`. -/
def trainStep (tok : String → List String) (fs : String → Option String)
    (authors : List String) (d : List (String × List Nat))
    (entry : String × String) : Option (List (String × List Nat)) :=
  match authors.findIdx? (fun name => name == entry.1), fs entry.2 with
  | some idx, some text =>
      some ((tok text).foldl (fun d2 t => dictBump d2 t authors.length idx) d)
  | _, _ => none

/-- The function `BayesianModel::train`.  `tok` embeds `Self::tokenize`
(charabia), `fs` embeds `std::fs::read_to_string`, and `order` is the
iteration order of the author `HashSet` — unspecified and hash-seed
dependent in Rust, hence an oracle here. -/
def train (tok : String → List String) (order : List String → List String)
    (fs : String → Option String) (dataset : List (String × String)) :
    Option BayesianModel :=
  let authors := order (dataset.map Prod.fst)
  (dataset.foldlM (trainStep tok fs authors) []).map fun d =>
    let atc := atcOf authors.length d
    { authors := authors, token_author_dict := d,
      author_token_count := atc, total_token_count := atc.sum }

/-- The function `BayesianModel::preprocess`; `split` embeds
`TextSplitter::chunk_indices`. -/
def preprocess (split : String → List (Nat × String))
    (tok : String → List String) (text : String) : List (Nat × List String) :=
  (split text).map fun p => (p.1, tok p.2)

/-- The clamped computed rating for one known token and one author:
`(this_probability / (this_probability + other_probability)).max(MIN_RATING)
.min(MAX_RATING)`.  The two `u32` subtractions are truncated `Nat`
subtractions; for trained models the invariant keeps them in range. -/
def computedRating (m : BayesianModel) (a : Nat) (v : List Nat) : F :=
  let count := v.sum
  let token_author_count := v.getD a 0
  let this_probability :=
    F.div (F.ofNat token_author_count) (F.ofNat (m.author_token_count.getD a 0))
  let other_probability :=
    F.div (F.ofNat (count - token_author_count))
      (F.ofNat (m.total_token_count - m.author_token_count.getD a 0))
  ((F.div this_probability (this_probability.add other_probability)).fmax
      MIN_RATING).fmin MAX_RATING

/-- The ratings pushed for one token for author `a` in the token loop of
`predicate`: a known token pushes `NO_TOKEN_RATING` first when its count for
`a` is zero and then always the computed rating; an unknown token pushes
`MIN_RATING`. -/
def tokenRatings (m : BayesianModel) (a : Nat) (token : String) : List F :=
  match dictGet m.token_author_dict token with
  | none => [MIN_RATING]
  | some v =>
      (if v.getD a 0 = 0 then [NO_TOKEN_RATING] else []) ++ [computedRating m a v]

/-- The complete pre-trim rating list of a sentence for author `a` (the
vector `ratings[a]` right before `adjust_probabilities`). -/
def sentenceRatings (m : BayesianModel) (tokens : List String) (a : Nat) :
    List F :=
  (tokens.map (tokenRatings m a)).flatten

/-- The sort inside `adjust_probabilities`
(`sort_by(|a, b| a.partial_cmp(b).unwrap())`). -/
def sortRatings (l : List F) : List F := l.mergeSort F.fle

/-- The function `BayesianModel::adjust_probabilities`. -/
def adjust_probabilities (l : List F) : List F :=
  if 6 < l.length then
    let s := sortRatings l
    let t := (s.drop 2).take (s.length - 4)
    if 80 < t.length then t.take 40 ++ t.drop (t.length - 40) else t
  else l

/-- The fold behind `Iterator::product` for `f32` (empty product is `1.0`). -/
def prodF (l : List F) : F := l.foldl F.mul (F.fin 1)

/-- The per-author combination step closing `predicate`: trim, then
`p`, `q`, `s`, `(1 + s) / 2`.  `pw` embeds `f32::powf`. -/
def combineRatings (pw : F → F → F) (ratings : List F) : F :=
  let probabilities := adjust_probabilities ratings
  let nth := F.div (F.fin 1) (F.ofNat probabilities.length)
  let p := F.sub (F.fin 1)
    (pw (prodF (probabilities.map (fun r => F.sub (F.fin 1) r))) nth)
  let q := F.sub (F.fin 1) (pw (prodF probabilities) nth)
  let s := F.div (F.sub p q) (F.add p q)
  F.div (F.add (F.fin 1) s) (F.fin 2)

/-- The function `BayesianModel::predicate`. -/
def predicate (pw : F → F → F) (m : BayesianModel) (tokens : List String) :
    List F :=
  (List.range m.authors.length).map fun a =>
    combineRatings pw (sentenceRatings m tokens a)

/-- The function `BayesianModel::predicate_text`. -/
def predicate_text (pw : F → F → F) (split : String → List (Nat × String))
    (tok : String → List String) (m : BayesianModel) (text : String) :
    Predication :=
  let sentences := preprocess split tok text
  let sentence_count := sentences.length
  let sentences_predicate := sentences.map fun p => (p.1, predicate pw m p.2)
  let total := sentences_predicate.foldl
    (fun acc p => acc.zipWith F.add p.2)
    (List.replicate m.authors.length (F.fin 0))
  ⟨sentences_predicate,
   total.map fun probability => F.div probability (F.ofNat sentence_count)⟩

/-- The closure `transform` inside `classify_text`: attach author names by
position. -/
def transform (m : BayesianModel) (v : List F) : List (String × F) :=
  v.enum.map fun p => (m.authors.getD p.1 "", p.2)

/-- The function `BayesianModel::classify_text`. -/
def classify_text (pw : F → F → F) (split : String → List (Nat × String))
    (tok : String → List String) (m : BayesianModel) (text : String) :
    Classification :=
  let pr := predicate_text pw split tok m text
  ⟨pr.sentences_predicate.map fun p => (p.1, transform m p.2),
   transform m pr.total_predicate⟩

/-- The function `BayesianModel::save`: the file write is the identity on the
produced blob, the external `postcard` encoder is the parameter `enc`. -/
def save {β : Type} (enc : BayesianModel → β) (m : BayesianModel) : β := enc m

/-- The function `BayesianModel::load`: the file read is the identity on the
stored blob, the external `postcard` decoder is the parameter `dec`. -/
def load {β : Type} (dec : β → Option BayesianModel) (b : β) :
    Option BayesianModel := dec b

/-- Extensional equality of models: equal fields except that the token table
may be listed in a different order (a `serde` round trip of a `HashMap`
preserves the key-value mapping, not the iteration order). -/
def ModelEquiv (m1 m2 : BayesianModel) : Prop :=
  m1.authors = m2.authors ∧
  m1.author_token_count = m2.author_token_count ∧
  m1.total_token_count = m2.total_token_count ∧
  ∀ t, dictGet m1.token_author_dict t = dictGet m2.token_author_dict t

/-- The model invariant of claim C1. -/
def ModelInvariant (m : BayesianModel) : Prop :=
  m.author_token_count.length = m.authors.length ∧
  (∀ i, i < m.authors.length →
    m.author_token_count.getD i 0 =
      (m.token_author_dict.map (fun p => p.2.getD i 0)).sum) ∧
  m.total_token_count = m.author_token_count.sum ∧
  ∀ p ∈ m.token_author_dict, p.2.length = m.authors.length

/-- The range property of `f32::powf` that the combination formula relies
on: a base in `(0, 1)` raised to a positive exponent stays in `(0, 1)`. -/
def PwGood (pw : F → F → F) : Prop :=
  ∀ x y : ℚ, 0 < x → x < 1 → 0 < y →
    ∃ r : ℚ, pw (F.fin x) (F.fin y) = F.fin r ∧ 0 < r ∧ r < 1

/-- Membership of a float in the rating interval `[0.2, 0.7]`. -/
def IsRatingVal (x : F) : Prop := ∃ q : ℚ, x = F.fin q ∧ 1/5 ≤ q ∧ q ≤ 7/10

/-- Membership of a float in the unit interval `[0, 1]`. -/
def IsUnitScore (x : F) : Prop := ∃ q : ℚ, x = F.fin q ∧ 0 ≤ q ∧ q ≤ 1

/-- Absence of NaN from a rating list. -/
def NoNaN (l : List F) : Prop := ∀ x ∈ l, x ≠ F.nan

/-- Every comparison the sort may perform on the list is defined, so the
`partial_cmp(..).unwrap()` inside the sort cannot panic. -/
def SortSafe (l : List F) : Prop :=
  ∀ x ∈ l, ∀ y ∈ l, (F.pcmp x y).isSome = true

/-- Round-trip specification of claim C7: the reload succeeds and the
reloaded model classifies every text exactly like the original. -/
def RoundTripSpec {β : Type} (enc : BayesianModel → β)
    (dec : β → Option BayesianModel) (m : BayesianModel) : Prop :=
  ∃ m2, load dec (save enc m) = some m2 ∧
    ∀ pw split tok text,
      classify_text pw split tok m2 text = classify_text pw split tok m text

/-- Insertion-order de-duplication: the "first discovery" order that the
spec ascribes to the authors list. -/
def firstDiscovery (l : List String) : List String :=
  l.foldl (fun acc x => if x ∈ acc then acc else acc ++ [x]) []

/-- Concrete whitespace tokenizer standing in for charabia in witnesses. -/
def tokCAux : List Char → List Char → List String
  | [], [] => []
  | [], cur => [String.mk cur.reverse]
  | c :: cs, cur =>
      if c = ' ' then
        (if cur.isEmpty then tokCAux cs [] else String.mk cur.reverse :: tokCAux cs [])
      else tokCAux cs (c :: cur)

/-- Concrete tokenizer on strings. -/
def tokC (s : String) : List String := tokCAux s.toList []

/-- Concrete sentence splitter standing in for `TextSplitter` in witnesses:
empty text has no chunks, any other text is a single chunk at offset 0. -/
def splitC (s : String) : List (Nat × String) := if s = "" then [] else [(0, s)]

/-- Concrete hash-iteration oracle: first-discovery order. -/
def orderC (l : List String) : List String := firstDiscovery l

/-- Another legitimate hash-iteration oracle: reversed first-discovery order
(the hash order of a Rust `HashSet` is arbitrary). -/
def orderR (l : List String) : List String := (firstDiscovery l).reverse

/-- Concrete in-memory file store for witnesses. -/
def fsC (p : String) : Option String :=
  if p = "fa" then some "x x y" else if p = "fb" then some "y z" else none

/-- Concrete training dataset for witnesses. -/
def dsC : List (String × String) := [("a", "fa"), ("b", "fb")]

/-- The same dataset with the discovery order of the two authors swapped. -/
def dsR : List (String × String) := [("b", "fb"), ("a", "fa")]

/-- Concrete `powf` instantiation for witnesses; it satisfies `PwGood`. -/
def pwId (x : F) (_ : F) : F := x

/-- The model that `train` produces from `dsC` with the oracles above. -/
def mC : BayesianModel :=
  { authors := ["a", "b"],
    token_author_dict := [("x", [2, 0]), ("y", [1, 1]), ("z", [0, 1])],
    author_token_count := [3, 2],
    total_token_count := 5 }

/-- The empty model produced by training on the empty dataset. -/
def m0 : BayesianModel :=
  { authors := [], token_author_dict := [],
    author_token_count := [], total_token_count := 0 }

/-! Helper lemmas about the float embedding. -/

lemma F.add_fin (a b : ℚ) : F.add (F.fin a) (F.fin b) = F.fin (a + b) := rfl

lemma F.sub_fin (a b : ℚ) : F.sub (F.fin a) (F.fin b) = F.fin (a - b) := by
  simp [F.sub, F.add, F.neg, sub_eq_add_neg]

lemma F.mul_fin (a b : ℚ) : F.mul (F.fin a) (F.fin b) = F.fin (a * b) := rfl

lemma F.div_fin (a b : ℚ) (hb : b ≠ 0) :
    F.div (F.fin a) (F.fin b) = F.fin (a / b) := by
  simp [F.div, hb]

/-- The clamp `x.max(MIN_RATING).min(MAX_RATING)` lands in `[0.2, 0.7]` for
every input, NaN and the infinities included — a consequence of the
NaN-ignoring semantics of `f32::max` / `f32::min`. -/
lemma clamp_isRating (x : F) :
    IsRatingVal ((x.fmax MIN_RATING).fmin MAX_RATING) := by
  cases x with
  | fin q =>
      exact ⟨min (max q (1/5)) (7/10), rfl,
        le_min (le_max_right _ _) (by norm_num), min_le_right _ _⟩
  | inf => exact ⟨7/10, rfl, by norm_num, le_refl _⟩
  | ninf => exact ⟨min (1/5) (7/10), rfl,
      le_min le_rfl (by norm_num), min_le_right _ _⟩
  | nan => exact ⟨min (1/5) (7/10), rfl,
      le_min le_rfl (by norm_num), min_le_right _ _⟩

lemma computedRating_isRating (m : BayesianModel) (a : Nat) (v : List Nat) :
    IsRatingVal (computedRating m a v) :=
  clamp_isRating _

lemma min_isRating : IsRatingVal MIN_RATING := ⟨1/5, rfl, le_rfl, by norm_num⟩

lemma no_token_isRating : IsRatingVal NO_TOKEN_RATING :=
  ⟨2/5, rfl, by norm_num, by norm_num⟩

lemma tokenRatings_isRating (m : BayesianModel) (a : Nat) (t : String) :
    ∀ x ∈ tokenRatings m a t, IsRatingVal x := by
  intro x hx
  unfold tokenRatings at hx
  cases hd : dictGet m.token_author_dict t with
  | none =>
      rw [hd] at hx
      simp only [List.mem_singleton] at hx
      subst hx
      exact min_isRating
  | some v =>
      rw [hd] at hx
      rcases List.mem_append.1 hx with h | h
      · by_cases hz : v.getD a 0 = 0
        · rw [if_pos hz] at h
          simp only [List.mem_singleton] at h
          subst h
          exact no_token_isRating
        · rw [if_neg hz] at h
          simp at h
      · simp only [List.mem_singleton] at h
        subst h
        exact computedRating_isRating m a v

lemma tokenRatings_ne_nil (m : BayesianModel) (a : Nat) (t : String) :
    tokenRatings m a t ≠ [] := by
  unfold tokenRatings
  cases hd : dictGet m.token_author_dict t with
  | none => simp
  | some v => simp

lemma sentenceRatings_isRating (m : BayesianModel) (tokens : List String)
    (a : Nat) : ∀ x ∈ sentenceRatings m tokens a, IsRatingVal x := by
  intro x hx
  unfold sentenceRatings at hx
  obtain ⟨l, hl, hxl⟩ := List.mem_flatten.1 hx
  obtain ⟨t, _, rfl⟩ := List.mem_map.1 hl
  exact tokenRatings_isRating m a t x hxl

lemma sentenceRatings_ne_nil (m : BayesianModel) (tokens : List String)
    (a : Nat) (h : tokens ≠ []) : sentenceRatings m tokens a ≠ [] := by
  cases tokens with
  | nil => exact absurd rfl h
  | cons t ts =>
      unfold sentenceRatings
      simp only [List.map_cons, List.flatten_cons, ne_eq, List.append_eq_nil]
      intro hcon
      exact tokenRatings_ne_nil m a t hcon.1

/-! Helper lemmas about the sort and the trim. -/

lemma fle_total (a b : F) : (F.fle a b || F.fle b a) = true := by
  cases a <;> cases b <;> simp [F.fle] <;> exact le_total _ _

lemma fle_trans (a b c : F) :
    F.fle a b = true → F.fle b c = true → F.fle a c = true := by
  cases a <;> cases b <;> cases c <;> simp [F.fle] <;> exact fun h1 h2 => le_trans h1 h2

lemma sortRatings_perm (l : List F) : (sortRatings l).Perm l :=
  List.mergeSort_perm l F.fle

lemma sortRatings_length (l : List F) : (sortRatings l).length = l.length :=
  (sortRatings_perm l).length_eq

lemma sortRatings_sorted (l : List F) :
    (sortRatings l).Pairwise (fun x y => F.fle x y = true) :=
  List.sorted_mergeSort fle_trans fle_total l

lemma adjust_eq_of_length_le (l : List F) (h : l.length ≤ 6) :
    adjust_probabilities l = l := by
  unfold adjust_probabilities
  rw [if_neg (by omega)]

lemma adjust_mem (l : List F) (x : F) (hx : x ∈ adjust_probabilities l) :
    x ∈ l := by
  unfold adjust_probabilities at hx
  by_cases h6 : 6 < l.length
  · rw [if_pos h6] at hx
    simp only at hx
    have hmem : ∀ y ∈ ((sortRatings l).drop 2).take ((sortRatings l).length - 4),
        y ∈ l := by
      intro y hy
      exact (sortRatings_perm l).mem_iff.1
        (List.mem_of_mem_drop (List.mem_of_mem_take hy))
    by_cases h80 :
        80 < (((sortRatings l).drop 2).take ((sortRatings l).length - 4)).length
    · rw [if_pos h80] at hx
      rcases List.mem_append.1 hx with h | h
      · exact hmem x (List.mem_of_mem_take h)
      · exact hmem x (List.mem_of_mem_drop h)
    · rw [if_neg h80] at hx
      exact hmem x hx
  · rw [if_neg h6] at hx
    exact hx

lemma adjust_mid_length (l : List F) (h6 : 6 < l.length) :
    (((sortRatings l).drop 2).take ((sortRatings l).length - 4)).length
      = l.length - 4 := by
  rw [List.length_take, List.length_drop, sortRatings_length]
  omega

lemma adjust_length_pos (l : List F) (h : l ≠ []) :
    0 < (adjust_probabilities l).length := by
  have hl : 0 < l.length := List.length_pos.2 h
  unfold adjust_probabilities
  by_cases h6 : 6 < l.length
  · rw [if_pos h6]
    simp only
    have hmid := adjust_mid_length l h6
    by_cases h80 :
        80 < (((sortRatings l).drop 2).take ((sortRatings l).length - 4)).length
    · rw [if_pos h80]
      rw [List.length_append, List.length_take, List.length_drop]
      omega
    · rw [if_neg h80]
      omega
  · rw [if_neg h6]
    exact hl

/-! Helper lemmas about the combination formula. -/

lemma foldl_mul_fin (l : List F) : ∀ (A : ℚ), 0 < A → A ≤ 1 →
    (∀ x ∈ l, ∃ q : ℚ, x = F.fin q ∧ 0 < q ∧ q < 1) →
    ∃ P : ℚ, l.foldl F.mul (F.fin A) = F.fin P ∧ 0 < P ∧ P ≤ A ∧
      (l ≠ [] → P < 1) := by
  induction l with
  | nil =>
      intro A hA hA1 _
      exact ⟨A, rfl, hA, le_rfl, fun h => absurd rfl h⟩
  | cons x xs ih =>
      intro A hA hA1 hmem
      obtain ⟨q, rfl, hq0, hq1⟩ := hmem x (List.mem_cons_self _ _)
      have hAq0 : 0 < A * q := mul_pos hA hq0
      have hAq1 : A * q < 1 := by nlinarith
      obtain ⟨P, hP, hP0, hPle, _⟩ :=
        ih (A * q) hAq0 hAq1.le (fun y hy => hmem y (List.mem_cons_of_mem _ hy))
      refine ⟨P, ?_, hP0, ?_, fun _ => ?_⟩
      · simpa [F.mul_fin] using hP
      · nlinarith
      · nlinarith

lemma prodF_bounds (l : List F) (hne : l ≠ [])
    (hmem : ∀ x ∈ l, ∃ q : ℚ, x = F.fin q ∧ 0 < q ∧ q < 1) :
    ∃ P : ℚ, prodF l = F.fin P ∧ 0 < P ∧ P < 1 := by
  obtain ⟨P, hP, hP0, _, hPlt⟩ := foldl_mul_fin l 1 one_pos le_rfl hmem
  exact ⟨P, hP, hP0, hPlt hne⟩

/-- Core bound for claim C6: on a nonempty rating list whose entries all lie
in `[0.2, 0.7]`, the combination formula produces a finite score in
`[0, 1]`, for any `powf` with the `PwGood` range property. -/
lemma combine_isUnit (pw : F → F → F) (hpw : PwGood pw) (l : List F)
    (hne : l ≠ []) (hmem : ∀ x ∈ l, IsRatingVal x) :
    IsUnitScore (combineRatings pw l) := by
  have hpsne : adjust_probabilities l ≠ [] :=
    List.length_pos.1 (adjust_length_pos l hne)
  have hpsmem : ∀ x ∈ adjust_probabilities l, IsRatingVal x :=
    fun x hx => hmem x (adjust_mem l x hx)
  have hn : 0 < (adjust_probabilities l).length := List.length_pos.2 hpsne
  have hnq : ((adjust_probabilities l).length : ℚ) ≠ 0 := by
    exact_mod_cast hn.ne'
  have hnth : F.div (F.fin 1) (F.ofNat (adjust_probabilities l).length)
      = F.fin (1 / ((adjust_probabilities l).length : ℚ)) := by
    unfold F.ofNat
    exact F.div_fin 1 _ hnq
  have h1 : ∀ x ∈ adjust_probabilities l,
      ∃ q : ℚ, x = F.fin q ∧ 0 < q ∧ q < 1 := by
    intro x hx
    obtain ⟨q, rfl, ha, hb⟩ := hpsmem x hx
    exact ⟨q, rfl, by linarith, by linarith⟩
  obtain ⟨P1, hP1, hP10, hP11⟩ := prodF_bounds _ hpsne h1
  have hmapne : (adjust_probabilities l).map (fun r => F.sub (F.fin 1) r) ≠ [] := by
    simpa using hpsne
  have h2 : ∀ x ∈ (adjust_probabilities l).map (fun r => F.sub (F.fin 1) r),
      ∃ q : ℚ, x = F.fin q ∧ 0 < q ∧ q < 1 := by
    intro x hx
    obtain ⟨r, hr, rfl⟩ := List.mem_map.1 hx
    obtain ⟨q, rfl, ha, hb⟩ := hpsmem r hr
    exact ⟨1 - q, F.sub_fin 1 q, by linarith, by linarith⟩
  obtain ⟨P2, hP2, hP20, hP21⟩ := prodF_bounds _ hmapne h2
  have hy : (0 : ℚ) < 1 / ((adjust_probabilities l).length : ℚ) := by
    have : (0 : ℚ) < ((adjust_probabilities l).length : ℚ) := by exact_mod_cast hn
    positivity
  obtain ⟨r1, hr1, hr10, hr11⟩ := hpw P2 _ hP20 hP21 hy
  obtain ⟨r2, hr2, hr20, hr21⟩ := hpw P1 _ hP10 hP11 hy
  have hpq : (0 : ℚ) < (1 - r1) + (1 - r2) := by linarith
  have hs1 : (1 - r1) - (1 - r2) ≤ (1 - r1) + (1 - r2) := by linarith
  have hs2 : -((1 - r1) + (1 - r2)) ≤ (1 - r1) - (1 - r2) := by linarith
  refine ⟨(1 + ((1 - r1) - (1 - r2)) / ((1 - r1) + (1 - r2))) / 2, ?_, ?_, ?_⟩
  · simp only [combineRatings]
    rw [hnth, hP1, hP2, hr1, hr2, F.sub_fin, F.sub_fin, F.sub_fin, F.add_fin,
      F.div_fin _ _ hpq.ne', F.add_fin, F.div_fin _ _ (by norm_num)]
  · have : -1 ≤ ((1 - r1) - (1 - r2)) / ((1 - r1) + (1 - r2)) := by
      rw [le_div_iff₀ hpq]
      linarith
    linarith
  · have : ((1 - r1) - (1 - r2)) / ((1 - r1) + (1 - r2)) ≤ 1 := by
      rw [div_le_one hpq]
      linarith
    linarith

/-! Helper lemmas about training. -/

lemma vecBump_length (v : List Nat) (idx : Nat) :
    (vecBump v idx).length = v.length :=
  List.length_set v idx _

lemma dictBump_forall_length (k : String) (A idx : Nat) :
    ∀ (d : List (String × List Nat)), (∀ p ∈ d, p.2.length = A) →
    ∀ p ∈ dictBump d k A idx, p.2.length = A := by
  intro d
  induction d with
  | nil =>
      intro _ p hp
      simp only [dictBump, List.mem_singleton] at hp
      subst hp
      simp [vecBump_length]
  | cons q rest ih =>
      intro hd p hp
      unfold dictBump at hp
      split at hp
      · rcases List.mem_cons.1 hp with rfl | hmem
        · have := hd q (List.mem_cons_self _ _)
          simpa [vecBump_length] using this
        · exact hd p (List.mem_cons_of_mem _ hmem)
      · rcases List.mem_cons.1 hp with rfl | hmem
        · exact hd p (List.mem_cons_self _ _)
        · exact ih (fun r hr => hd r (List.mem_cons_of_mem _ hr)) p hmem

lemma foldl_dictBump_forall_length (A idx : Nat) (tokens : List String) :
    ∀ (d : List (String × List Nat)), (∀ p ∈ d, p.2.length = A) →
    ∀ p ∈ tokens.foldl (fun d2 t => dictBump d2 t A idx) d, p.2.length = A := by
  induction tokens with
  | nil => intro d hd; exact hd
  | cons t ts ih =>
      intro d hd
      exact ih _ (dictBump_forall_length t A idx d hd)

lemma trainStep_forall_length (tok : String → List String)
    (fs : String → Option String) (authors : List String)
    (d d2 : List (String × List Nat)) (entry : String × String)
    (h : trainStep tok fs authors d entry = some d2)
    (hd : ∀ p ∈ d, p.2.length = authors.length) :
    ∀ p ∈ d2, p.2.length = authors.length := by
  unfold trainStep at h
  split at h
  · cases h
    exact foldl_dictBump_forall_length _ _ _ d hd
  · cases h

lemma foldlM_trainStep_forall_length (tok : String → List String)
    (fs : String → Option String) (authors : List String) :
    ∀ (ds : List (String × String)) (d dOut : List (String × List Nat)),
    ds.foldlM (trainStep tok fs authors) d = some dOut →
    (∀ p ∈ d, p.2.length = authors.length) →
    ∀ p ∈ dOut, p.2.length = authors.length := by
  intro ds
  induction ds with
  | nil =>
      intro d dOut h hd
      rw [List.foldlM_nil] at h
      cases h
      exact hd
  | cons e es ih =>
      intro d dOut h hd
      rw [List.foldlM_cons] at h
      cases hstep : trainStep tok fs authors d e with
      | none => rw [hstep] at h; simp at h
      | some d1 =>
          rw [hstep] at h
          simp at h
          exact ih d1 dOut h (trainStep_forall_length tok fs authors d d1 e hstep hd)

lemma vecAdd_length (a b : List Nat) (h : b.length = a.length) :
    (vecAdd a b).length = a.length := by
  simp [vecAdd, List.length_zipWith, h]

lemma vecAdd_getD (a b : List Nat) (i : Nat) (ha : i < a.length)
    (hb : i < b.length) :
    (vecAdd a b).getD i 0 = a.getD i 0 + b.getD i 0 := by
  have hl : i < (vecAdd a b).length := by
    simp only [vecAdd, List.length_zipWith]
    omega
  simp only [vecAdd] at hl ⊢
  rw [List.getD_eq_getElem _ _ hl, List.getD_eq_getElem _ _ ha,
    List.getD_eq_getElem _ _ hb]
  exact List.getElem_zipWith

lemma foldl_vecAdd_length :
    ∀ (d : List (String × List Nat)) (acc : List Nat),
    (∀ p ∈ d, p.2.length = acc.length) →
    (d.foldl (fun a p => vecAdd a p.2) acc).length = acc.length := by
  intro d
  induction d with
  | nil => intro acc _; rfl
  | cons p rest ih =>
      intro acc hd
      have h1 : (vecAdd acc p.2).length = acc.length :=
        vecAdd_length acc p.2 (hd p (List.mem_cons_self _ _))
      have h2 := ih (vecAdd acc p.2)
        (fun r hr => by rw [h1]; exact hd r (List.mem_cons_of_mem _ hr))
      rw [List.foldl_cons, h2, h1]

lemma foldl_vecAdd_getD (i : Nat) :
    ∀ (d : List (String × List Nat)) (acc : List Nat),
    (∀ p ∈ d, p.2.length = acc.length) → i < acc.length →
    (d.foldl (fun a p => vecAdd a p.2) acc).getD i 0
      = acc.getD i 0 + (d.map (fun p => p.2.getD i 0)).sum := by
  intro d
  induction d with
  | nil => intro acc _ _; simp
  | cons p rest ih =>
      intro acc hd hi
      have hp : p.2.length = acc.length := hd p (List.mem_cons_self _ _)
      have h1 : (vecAdd acc p.2).length = acc.length := vecAdd_length acc p.2 hp
      have h2 := ih (vecAdd acc p.2)
        (fun r hr => by rw [h1]; exact hd r (List.mem_cons_of_mem _ hr))
        (by rw [h1]; exact hi)
      rw [List.foldl_cons, h2, vecAdd_getD acc p.2 i hi (by omega)]
      simp only [List.map_cons, List.sum_cons]
      omega

lemma atcOf_length (A : Nat) (d : List (String × List Nat))
    (hd : ∀ p ∈ d, p.2.length = A) : (atcOf A d).length = A := by
  unfold atcOf
  rw [foldl_vecAdd_length d _ (by simpa using hd)]
  exact List.length_replicate _ _

lemma atcOf_getD (A : Nat) (d : List (String × List Nat)) (i : Nat)
    (hd : ∀ p ∈ d, p.2.length = A) (hi : i < A) :
    (atcOf A d).getD i 0 = (d.map (fun p => p.2.getD i 0)).sum := by
  unfold atcOf
  rw [foldl_vecAdd_getD i d _ (by simpa using hd) (by simpa using hi)]
  have hr : (List.replicate A (0 : Nat)).getD i 0 = 0 := by
    rw [List.getD_eq_getElem _ _ (by simpa using hi), List.getElem_replicate]
  rw [hr]
  omega

lemma train_eq (tok : String → List String) (order : List String → List String)
    (fs : String → Option String) (ds : List (String × String))
    (m : BayesianModel) (htrain : train tok order fs ds = some m) :
    ∃ d, ds.foldlM (trainStep tok fs (order (ds.map Prod.fst))) [] = some d ∧
      m.authors = order (ds.map Prod.fst) ∧
      m.token_author_dict = d ∧
      m.author_token_count = atcOf (order (ds.map Prod.fst)).length d ∧
      m.total_token_count = (atcOf (order (ds.map Prod.fst)).length d).sum := by
  simp only [train] at htrain
  cases h : ds.foldlM (trainStep tok fs (order (ds.map Prod.fst))) [] with
  | none => rw [h] at htrain; simp at htrain
  | some d =>
      rw [h] at htrain
      simp only [Option.map_some'] at htrain
      obtain rfl := Option.some.inj htrain
      exact ⟨d, rfl, rfl, rfl, rfl, rfl⟩

/-- The model invariant holds for every model that `train` returns. -/
lemma train_ModelInvariant (tok : String → List String)
    (order : List String → List String) (fs : String → Option String)
    (ds : List (String × String)) (m : BayesianModel)
    (htrain : train tok order fs ds = some m) : ModelInvariant m := by
  obtain ⟨d, hfold, ha, hdict, hatc, htot⟩ := train_eq tok order fs ds m htrain
  have hlen : ∀ p ∈ d, p.2.length = (order (ds.map Prod.fst)).length :=
    foldlM_trainStep_forall_length tok fs _ ds [] d hfold (by simp)
  refine ⟨?_, ?_, ?_, ?_⟩
  · rw [hatc, ha]
    exact atcOf_length _ d hlen
  · intro i hi
    rw [ha] at hi
    rw [hatc, hdict]
    exact atcOf_getD _ d i hlen hi
  · rw [htot, hatc]
  · intro p hp
    rw [hdict] at hp
    rw [ha]
    exact hlen p hp

/-! Helper lemmas about model equivalence and the empty model. -/

lemma computedRating_congr (m1 m2 : BayesianModel)
    (h2 : m1.author_token_count = m2.author_token_count)
    (h3 : m1.total_token_count = m2.total_token_count) :
    computedRating m1 = computedRating m2 := by
  funext a v
  simp only [computedRating, h2, h3]

lemma tokenRatings_congr (m1 m2 : BayesianModel) (h : ModelEquiv m1 m2) :
    tokenRatings m1 = tokenRatings m2 := by
  obtain ⟨h1, h2, h3, h4⟩ := h
  funext a t
  simp only [tokenRatings, h4 t, computedRating_congr m1 m2 h2 h3]

/-- Classification depends on the model only through its author list, its
totals, and lookups in the token table, so extensionally equal models
classify identically. -/
lemma classify_congr (m1 m2 : BayesianModel) (h : ModelEquiv m1 m2)
    (pw : F → F → F) (split : String → List (Nat × String))
    (tok : String → List String) (text : String) :
    classify_text pw split tok m1 text = classify_text pw split tok m2 text := by
  obtain ⟨h1, h2, h3, h4⟩ := h
  have htr : tokenRatings m1 = tokenRatings m2 :=
    tokenRatings_congr m1 m2 ⟨h1, h2, h3, h4⟩
  have hsr : sentenceRatings m1 = sentenceRatings m2 := by
    funext tokens a
    simp only [sentenceRatings, htr]
  have hpred : predicate pw m1 = predicate pw m2 := by
    funext tokens
    simp only [predicate, hsr, h1]
  have hpt : predicate_text pw split tok m1 text
      = predicate_text pw split tok m2 text := by
    simp only [predicate_text, hpred, h1]
  have htf : transform m1 = transform m2 := by
    funext v
    simp only [transform, h1]
  simp only [classify_text, hpt, htf]

lemma predicate_m0 (pw : F → F → F) (tokens : List String) :
    predicate pw m0 tokens = [] := rfl

lemma foldl_zipWith_nil (L : List (Nat × List F)) :
    L.foldl (fun acc p => acc.zipWith F.add p.2) ([] : List F) = [] := by
  induction L with
  | nil => rfl
  | cons p ps ih => simpa [List.zipWith_nil_left] using ih

lemma classify_m0 (pw : F → F → F) (split : String → List (Nat × String))
    (tok : String → List String) (text : String) :
    (∀ p ∈ (classify_text pw split tok m0 text).sentences_classification,
      p.2 = []) ∧
    (classify_text pw split tok m0 text).total_classification = [] := by
  have hsent : (predicate_text pw split tok m0 text).sentences_predicate
      = (preprocess split tok text).map (fun p => (p.1, ([] : List F))) := by
    simp only [predicate_text]
    simp [predicate_m0]
  have htot : (predicate_text pw split tok m0 text).total_predicate = [] := by
    simp only [predicate_text]
    have h0 : List.replicate m0.authors.length (F.fin 0) = ([] : List F) := rfl
    rw [h0, foldl_zipWith_nil]
    rfl
  constructor
  · intro p hp
    simp only [classify_text, hsent] at hp
    rw [List.map_map] at hp
    obtain ⟨q, _, rfl⟩ := List.mem_map.1 hp
    rfl
  · simp only [classify_text, htot]
    rfl

lemma train_nil (tok : String → List String)
    (order : List String → List String) (fs : String → Option String)
    (horder : order [] = []) : train tok order fs [] = some m0 := by
  simp [train, horder, atcOf, m0]

/-! Claim theorems. -/

/-- Claim C1: every model returned by `train` satisfies the model invariant —
each entry of `author_token_count` is the columnwise sum of the token table,
`total_token_count` is the sum of `author_token_count`, and every token
vector has exactly `authors.len()` entries. -/
theorem train_invariant (tok : String → List String)
    (order : List String → List String) (fs : String → Option String)
    (ds : List (String × String)) (m : BayesianModel)
    (htrain : train tok order fs ds = some m) : ModelInvariant m :=
  train_ModelInvariant tok order fs ds m htrain

/-- Claim C1 witness: the invariant, instantiated on a concrete trained
model. -/
theorem train_invariant_witness : ModelInvariant mC :=
  train_invariant tokC orderC fsC dsC mC (by decide)

/-- Claim C2 failing evaluation: on the empty document, `classify_text`
divides the zero-initialised per-author totals by `sentence_count = 0` and
returns NaN for every author in the aggregate map — the degenerate input is
not guarded as the claim requires. -/
theorem classify_empty_text_nan :
    (train tokC orderC fsC dsC).map
      (fun m => (classify_text pwId splitC tokC m "").total_classification)
      = some [("a", F.nan), ("b", F.nan)] := by
  decide

/-- Claim C3: in every rating list built before trimming, every entry lies in
`[0.2, 0.7]`; an unknown token pushes exactly `MIN_RATING = 0.2`, a known
token with a zero count for the author pushes exactly `NO_TOKEN_RATING = 0.4`
followed by the clamped computed rating, and otherwise only the clamped
computed rating — which always lies in `[0.2, 0.7]` — is pushed. -/
theorem ratings_in_range (tok : String → List String)
    (order : List String → List String) (fs : String → Option String)
    (ds : List (String × String)) (m : BayesianModel)
    (htrain : train tok order fs ds = some m) (a : Nat) :
    (∀ tokens, ∀ x ∈ sentenceRatings m tokens a, IsRatingVal x) ∧
    (∀ token, dictGet m.token_author_dict token = none →
      tokenRatings m a token = [MIN_RATING]) ∧
    (∀ token v, dictGet m.token_author_dict token = some v → v.getD a 0 = 0 →
      tokenRatings m a token = [NO_TOKEN_RATING, computedRating m a v] ∧
        IsRatingVal (computedRating m a v)) ∧
    (∀ token v, dictGet m.token_author_dict token = some v → v.getD a 0 ≠ 0 →
      tokenRatings m a token = [computedRating m a v] ∧
        IsRatingVal (computedRating m a v)) := by
  refine ⟨fun tokens => sentenceRatings_isRating m tokens a, ?_, ?_, ?_⟩
  · intro token hnone
    unfold tokenRatings
    rw [hnone]
  · intro token v hsome hz
    refine ⟨?_, computedRating_isRating m a v⟩
    simp only [tokenRatings, hsome]
    rw [if_pos hz]
    rfl
  · intro token v hsome hz
    refine ⟨?_, computedRating_isRating m a v⟩
    simp only [tokenRatings, hsome]
    rw [if_neg hz]
    rfl

/-- Claim C3 witness: the zero-count token `x` for the second author of a
concrete trained model. -/
theorem ratings_in_range_witness :
    tokenRatings mC 1 "x" = [NO_TOKEN_RATING, computedRating mC 1 [2, 0]] ∧
    IsRatingVal (computedRating mC 1 [2, 0]) :=
  (ratings_in_range tokC orderC fsC dsC mC (by decide) 1).2.2.1 "x" [2, 0]
    (by decide) (by decide)

/-- Claim C4: for a known token whose count for author `a` is zero, the
classifier records the fixed `NO_TOKEN_RATING` first and then also the
clamped computed rating — both entries are kept. -/
theorem zero_count_double_push (tok : String → List String)
    (order : List String → List String) (fs : String → Option String)
    (ds : List (String × String)) (m : BayesianModel)
    (htrain : train tok order fs ds = some m) (a : Nat) (token : String)
    (v : List Nat) (ha : a < m.authors.length)
    (hv : dictGet m.token_author_dict token = some v) (hz : v.getD a 0 = 0) :
    tokenRatings m a token = [NO_TOKEN_RATING, computedRating m a v] ∧
    (tokenRatings m a token).length = 2 := by
  have h : tokenRatings m a token = [NO_TOKEN_RATING, computedRating m a v] := by
    simp only [tokenRatings, hv]
    rw [if_pos hz]
    rfl
  exact ⟨h, by rw [h]; rfl⟩

/-- Claim C4 witness: the double push on a concrete trained model. -/
theorem zero_count_double_push_witness :
    tokenRatings mC 1 "x" = [NO_TOKEN_RATING, computedRating mC 1 [2, 0]] ∧
    (tokenRatings mC 1 "x").length = 2 :=
  zero_count_double_push tokC orderC fsC dsC mC (by decide) 1 "x" [2, 0]
    (by decide) (by decide) (by decide)

/-- Claim C5: `adjust_probabilities` returns lists of at most 6 ratings
unchanged; on longer lists it sorts ascending (the sorted list is a
permutation of the input), drops exactly the 2 lowest and 2 highest, and if
more than 80 ratings remain it keeps exactly the 40 lowest and the 40
highest of the remainder, so exactly 80 survive. -/
theorem adjust_probabilities_trim (l : List F) :
    (l.length ≤ 6 → adjust_probabilities l = l) ∧
    (6 < l.length →
      (sortRatings l).Perm l ∧
      (sortRatings l).Pairwise (fun x y => F.fle x y = true) ∧
      (((sortRatings l).drop 2).take (l.length - 4)).length = l.length - 4 ∧
      (l.length - 4 ≤ 80 →
        adjust_probabilities l = ((sortRatings l).drop 2).take (l.length - 4)) ∧
      (80 < l.length - 4 →
        adjust_probabilities l =
          (((sortRatings l).drop 2).take (l.length - 4)).take 40 ++
          (((sortRatings l).drop 2).take (l.length - 4)).drop
            ((l.length - 4) - 40) ∧
        (adjust_probabilities l).length = 80)) := by
  have hs : (sortRatings l).length = l.length := sortRatings_length l
  constructor
  · exact adjust_eq_of_length_le l
  · intro h6
    have hmid := adjust_mid_length l h6
    have hmid2 : ((sortRatings l).drop 2).take ((sortRatings l).length - 4)
        = ((sortRatings l).drop 2).take (l.length - 4) := by rw [hs]
    refine ⟨sortRatings_perm l, sortRatings_sorted l, ?_, ?_, ?_⟩
    · rw [List.length_take, List.length_drop, hs]
      omega
    · intro h80
      unfold adjust_probabilities
      rw [if_pos h6]
      simp only
      rw [hmid, if_neg (by omega), hmid2]
    · intro h80
      have heq : adjust_probabilities l =
          (((sortRatings l).drop 2).take (l.length - 4)).take 40 ++
          (((sortRatings l).drop 2).take (l.length - 4)).drop
            ((l.length - 4) - 40) := by
        unfold adjust_probabilities
        rw [if_pos h6]
        simp only
        rw [hmid, if_pos (by omega), hmid2]
      refine ⟨heq, ?_⟩
      rw [heq]
      simp only [List.length_append, List.length_take, List.length_drop, hs]
      omega

/-- Claim C5 witness: a list of 3 ratings is unchanged and a list of 100
ratings is trimmed to exactly 80. -/
theorem adjust_probabilities_trim_witness :
    adjust_probabilities (List.replicate 3 MIN_RATING)
      = List.replicate 3 MIN_RATING ∧
    (adjust_probabilities (List.replicate 100 MIN_RATING)).length = 80 := by
  refine ⟨(adjust_probabilities_trim (List.replicate 3 MIN_RATING)).1
    (by decide), ?_⟩
  exact (((adjust_probabilities_trim (List.replicate 100 MIN_RATING)).2
    (by decide)).2.2.2.2 (by decide)).2

/-- Claim C6: every per-author per-sentence score produced by the
combination formula on a trained model is a finite value in `[0, 1]`.  The
external tokenizer is assumed to produce at least one token per sentence
(charabia returns at least one segment on any nonempty chunk), and `powf`
is assumed to satisfy its IEEE range property `PwGood`. -/
theorem sentence_scores_unit (pw : F → F → F)
    (split : String → List (Nat × String)) (tok : String → List String)
    (order : List String → List String) (fs : String → Option String)
    (ds : List (String × String)) (m : BayesianModel) (hpw : PwGood pw)
    (htrain : train tok order fs ds = some m) (text : String)
    (hne : ∀ p ∈ preprocess split tok text, p.2 ≠ []) :
    ∀ pr ∈ (predicate_text pw split tok m text).sentences_predicate,
      ∀ x ∈ pr.2, IsUnitScore x := by
  intro pr hpr x hx
  simp only [predicate_text] at hpr
  obtain ⟨p, hp, rfl⟩ := List.mem_map.1 hpr
  simp only [predicate] at hx
  obtain ⟨a, _, rfl⟩ := List.mem_map.1 hx
  exact combine_isUnit pw hpw _ (sentenceRatings_ne_nil m p.2 a (hne p hp))
    (sentenceRatings_isRating m p.2 a)

/-- Claim C6 witness: a concrete per-sentence score of a concrete trained
model lies in the unit interval. -/
theorem sentence_scores_unit_witness :
    IsUnitScore ((predicate pwId mC (tokC "x y")).getD 0 F.nan) := by
  have hpw : PwGood pwId := fun x y hx hx1 hy => ⟨x, rfl, hx, hx1⟩
  have h := sentence_scores_unit pwId splitC tokC orderC fsC dsC mC hpw
    (by decide) "x y" (by decide)
  have hp : preprocess splitC tokC "x y" = [(0, tokC "x y")] := by decide
  have hsp : (predicate_text pwId splitC tokC mC "x y").sentences_predicate
      = [(0, predicate pwId mC (tokC "x y"))] := by
    simp only [predicate_text, hp, List.map_cons, List.map_nil]
  have hpred : predicate pwId mC (tokC "x y")
      = [combineRatings pwId (sentenceRatings mC (tokC "x y") 0),
         combineRatings pwId (sentenceRatings mC (tokC "x y") 1)] := rfl
  rw [hpred, List.getD_cons_zero]
  refine h (0, predicate pwId mC (tokC "x y")) ?_ _ ?_
  · rw [hsp]
    exact List.mem_cons_self _ _
  · rw [show (0, predicate pwId mC (tokC "x y")).2
        = predicate pwId mC (tokC "x y") from rfl, hpred]
    exact List.mem_cons_self _ _

/-- Claim C7: reloading a saved trained model succeeds and the reloaded
model produces identical classifications for every text.  The external
`postcard` codec and the file system are the parameters `enc` and `dec`,
constrained by their round-trip contract: decoding an encoded model
succeeds and reproduces the model extensionally (the iteration order of the
serialised `HashMap` may differ, which classification cannot observe). -/
theorem save_load_roundtrip {β : Type} (enc : BayesianModel → β)
    (dec : β → Option BayesianModel) (tok : String → List String)
    (order : List String → List String) (fs : String → Option String)
    (ds : List (String × String)) (m : BayesianModel)
    (hcodec : ∀ mm, ∃ mm2, load dec (save enc mm) = some mm2 ∧ ModelEquiv mm mm2)
    (htrain : train tok order fs ds = some m) :
    RoundTripSpec enc dec m := by
  obtain ⟨m2, hm2, heq⟩ := hcodec m
  exact ⟨m2, hm2, fun pw split tok2 text =>
    (classify_congr m m2 heq pw split tok2 text).symm⟩

/-- Claim C7 witness: a trivially faithful codec on a concrete trained
model. -/
theorem save_load_roundtrip_witness : RoundTripSpec (fun mm => mm) some mC := by
  refine save_load_roundtrip (fun mm => mm) some tokC orderC fsC dsC mC ?_
    (by decide)
  intro mm
  exact ⟨mm, rfl, rfl, rfl, rfl, fun t => rfl⟩

/-- Claim C8 counterexample: the reversed first-discovery order is a
legitimate iteration order of the author `HashSet` (duplicate-free, same
members), and under it `train` returns the authors in an order different
from first-discovery order — the authors list is not ordered by first
discovery, and is not a function of the dataset alone. -/
theorem authors_order_not_first_discovery :
    (orderR (dsR.map Prod.fst)).Nodup ∧
    (orderR (dsR.map Prod.fst)).all (fun x => (dsR.map Prod.fst).contains x) ∧
    (dsR.map Prod.fst).all (fun x => (orderR (dsR.map Prod.fst)).contains x) ∧
    (train tokC orderR fsC dsR).map BayesianModel.authors = some ["a", "b"] ∧
    firstDiscovery (dsR.map Prod.fst) = ["b", "a"] ∧
    (["a", "b"] : List String) ≠ ["b", "a"] := by
  decide

/-- Claim C8 amended: for every hash-iteration order that enumerates the
distinct dataset authors exactly once (which Rust guarantees, in an
unspecified order), the authors list of the trained model is duplicate-free
and contains exactly the dataset authors; it is fixed in the returned model
and never changes afterwards. -/
theorem train_authors_dedup (tok : String → List String)
    (order : List String → List String) (fs : String → Option String)
    (ds : List (String × String)) (m : BayesianModel)
    (hnd : (order (ds.map Prod.fst)).Nodup)
    (hmem : ∀ x, x ∈ order (ds.map Prod.fst) ↔ x ∈ ds.map Prod.fst)
    (htrain : train tok order fs ds = some m) :
    m.authors.Nodup ∧ ∀ x, x ∈ m.authors ↔ x ∈ ds.map Prod.fst := by
  obtain ⟨d, _, ha, _, _, _⟩ := train_eq tok order fs ds m htrain
  rw [ha]
  exact ⟨hnd, hmem⟩

/-- Claim C8 amended witness: instantiation on a concrete dataset and a
concrete legitimate hash order. -/
theorem train_authors_dedup_witness :
    mC.authors.Nodup ∧ ("a" ∈ mC.authors ↔ "a" ∈ dsC.map Prod.fst) := by
  have horder : orderC (dsC.map Prod.fst) = dsC.map Prod.fst := by decide
  have h := train_authors_dedup tokC orderC fsC dsC mC (by decide)
    (fun x => by rw [horder]) (by decide)
  exact ⟨h.1, h.2 "a"⟩

/-- Claim C9: on a trained model every value in every rating list handed to
`adjust_probabilities` is a finite, non-NaN float, so every comparison the
sort may perform is defined and the `partial_cmp(..).unwrap()` cannot
panic. -/
theorem ratings_no_nan (tok : String → List String)
    (order : List String → List String) (fs : String → Option String)
    (ds : List (String × String)) (m : BayesianModel)
    (htrain : train tok order fs ds = some m) :
    ∀ tokens a, NoNaN (sentenceRatings m tokens a) ∧
      SortSafe (sentenceRatings m tokens a) := by
  intro tokens a
  constructor
  · intro x hx
    obtain ⟨q, rfl, _, _⟩ := sentenceRatings_isRating m tokens a x hx
    simp
  · intro x hx y hy
    obtain ⟨qx, rfl, _, _⟩ := sentenceRatings_isRating m tokens a x hx
    obtain ⟨qy, rfl, _, _⟩ := sentenceRatings_isRating m tokens a y hy
    rfl

/-- Claim C9 witness: instantiation on a concrete trained model and
sentence. -/
theorem ratings_no_nan_witness :
    NoNaN (sentenceRatings mC (tokC "x y w") 0) ∧
    SortSafe (sentenceRatings mC (tokC "x y w") 0) :=
  ratings_no_nan tokC orderC fsC dsC mC (by decide) (tokC "x y w") 0

/-- Claim C10: training on the empty dataset succeeds with the empty model
(no authors, empty token table, zero totals), and classifying any text with
that model returns a classification whose per-sentence maps and aggregate
map are all empty. -/
theorem train_empty_dataset (tok : String → List String)
    (order : List String → List String) (fs : String → Option String)
    (horder : order [] = []) :
    train tok order fs [] = some m0 ∧
    ∀ pw split tok2 text,
      (∀ p ∈ (classify_text pw split tok2 m0 text).sentences_classification,
        p.2 = []) ∧
      (classify_text pw split tok2 m0 text).total_classification = [] :=
  ⟨train_nil tok order fs horder,
   fun pw split tok2 text => classify_m0 pw split tok2 text⟩

/-- Claim C10 witness: concrete instantiation of empty-dataset training and
classification with the resulting model. -/
theorem train_empty_dataset_witness :
    train tokC orderC fsC [] = some m0 ∧
    (classify_text pwId splitC tokC m0 "hello").total_classification = [] := by
  have h := train_empty_dataset tokC orderC fsC (by decide)
  exact ⟨h.1, (h.2 pwId splitC tokC "hello").2⟩

end Stal
